import Mathlib

/-!
# pipe: a channel-backed counting semaphore

Embedding of `pipe.go`.  A `Pipe` wraps one buffered Go channel of `struct{}`
tokens: `Increment` sends a token, `Decrement` receives one, `One` calls
`Increment` and returns the `Decrement` method value.

The three Go primitives the source uses (`make(chan struct{}, w)`, send,
receive) are modelled by the channel state they act on: the capacity, the
number of buffered tokens and the two FIFO queues of parked goroutines.  Every
channel operation is one atomic step (the runtime performs it under the
channel's lock), so an execution of concurrent callers is an interleaving: a
list of requests, each issued by a goroutine.  A request either returns at once
or parks its goroutine; a parked goroutine is released by the step of the
counterpart operation that pairs with it.  Tokens are `struct{}` values, so
only their number is kept.  The channel is never closed by the source.
-/

namespace pipe

/-! ## Go channels of `struct{}` -/

/-- What a channel operation does to the goroutine that issues it. -/
inductive Status where
  | returned
  | blocked
  deriving DecidableEq, Repr

/-- Result of one channel step: the status of the issuing goroutine and the
parked goroutine (if any) that the step releases. -/
structure Effect where
  status : Status
  woken : Option Nat
  deriving DecidableEq, Repr

/-- State of a channel: `qcount` tokens buffered out of `dataqsiz`, and the
goroutines parked in receive (`recvq`) and in send (`sendq`), oldest first. -/
structure hchan where
  qcount : Nat
  dataqsiz : Nat
  recvq : List Nat
  sendq : List Nat
  deriving DecidableEq, Repr

/-- The Go builtin `make(chan struct{}, size)`: a negative size is a run-time
panic, any other size gives an empty channel of that capacity. -/
def makechan (size : Int) : Except String hchan :=
  if size < 0 then .error "makechan: size out of range"
  else .ok { qcount := 0, dataqsiz := size.toNat, recvq := [], sendq := [] }

/-- The send statement `c <- struct{}{}` issued by goroutine `g`: hand the token
to the oldest parked receiver if there is one, else buffer it if there is room,
else park. -/
def chansend (c : hchan) (g : Nat) : hchan × Effect :=
  match c.recvq with
  | r :: rs => ({ c with recvq := rs }, ⟨.returned, some r⟩)
  | [] =>
    if c.qcount < c.dataqsiz then
      ({ c with qcount := c.qcount + 1 }, ⟨.returned, none⟩)
    else
      ({ c with sendq := c.sendq ++ [g] }, ⟨.blocked, none⟩)

/-- The receive expression `<-c` issued by goroutine `g`: if a sender is parked,
take a token (from the sender when unbuffered, else the head of the full buffer,
whose freed place takes the sender's token) and release that sender; else take
a buffered token if there is one; else park. -/
def chanrecv (c : hchan) (g : Nat) : hchan × Effect :=
  match c.sendq with
  | s :: ss => ({ c with sendq := ss }, ⟨.returned, some s⟩)
  | [] =>
    if 0 < c.qcount then
      ({ c with qcount := c.qcount - 1 }, ⟨.returned, none⟩)
    else
      ({ c with recvq := c.recvq ++ [g] }, ⟨.blocked, none⟩)

/-! ## The source: `Pipe`, `New`, `Increment`, `Decrement`, `One` -/

/-- Allocated channels; a channel value is a reference, here an index. -/
abbrev Heap := List hchan

/-- The struct `Pipe`: its only field `c` is a channel reference. -/
structure Pipe where
  c : Nat
  deriving DecidableEq, Repr

/-- Constructor `New(w)`: allocate a channel of capacity `w` and wrap it. -/
def New (w : Int) (h : Heap) : Except String (Pipe × Heap) :=
  match makechan w with
  | .error e => .error e
  | .ok ch => .ok ({ c := h.length }, h ++ [ch])

/-- Method `p.Increment()` called by goroutine `g`: `p.c <- struct{}{}`.  A reference
that designates no allocated channel is the nil channel, on which a send
blocks forever. -/
def Pipe.Increment (p : Pipe) (g : Nat) (h : Heap) : Heap × Effect :=
  match h[p.c]? with
  | none => (h, ⟨.blocked, none⟩)
  | some ch => ((h.set p.c (chansend ch g).1), (chansend ch g).2)

/-- Method `p.Decrement()` called by goroutine `g`: `<-p.c`.  A receive from the nil
channel blocks forever. -/
def Pipe.Decrement (p : Pipe) (g : Nat) (h : Heap) : Heap × Effect :=
  match h[p.c]? with
  | none => (h, ⟨.blocked, none⟩)
  | some ch => ((h.set p.c (chanrecv ch g).1), (chanrecv ch g).2)

/-- Method `p.One()` called by goroutine `g`: runs `p.Increment()` and returns the
method value `p.Decrement`.  The first component is the step of the call, the
second the function the call returns once it completes. -/
def Pipe.One (p : Pipe) (g : Nat) (h : Heap) :
    (Heap × Effect) × (Nat → Heap → Heap × Effect) :=
  (p.Increment g h, p.Decrement)

/-! ## Executions -/

/-- The methods of `Pipe`. -/
inductive Call where
  | Increment
  | Decrement
  | One
  deriving DecidableEq, Repr

/-- A call of a method of pipe `p` by goroutine `g`. -/
structure Req where
  p : Pipe
  call : Call
  g : Nat
  deriving DecidableEq, Repr

/-- The step a request performs on the heap. -/
def Req.apply (r : Req) (h : Heap) : Heap × Effect :=
  match r.call with
  | .Increment => r.p.Increment r.g h
  | .Decrement => r.p.Decrement r.g h
  | .One => (r.p.One r.g h).1

/-- Run an interleaving of requests, recording the effect of each. -/
def exec : Heap → List Req → Heap × List (Req × Effect)
  | h, [] => (h, [])
  | h, r :: rs => ((exec (r.apply h).1 rs).1, (r, (r.apply h).2) :: (exec (r.apply h).1 rs).2)

/-- Number of tokens in the channel of `p`, Go's `len(p.c)`: the slots held. -/
def Pipe.held (p : Pipe) (h : Heap) : Nat :=
  match h[p.c]? with
  | none => 0
  | some ch => ch.qcount

/-- Capacity of the channel of `p`, Go's `cap(p.c)`. -/
def Pipe.capacity (p : Pipe) (h : Heap) : Nat :=
  match h[p.c]? with
  | none => 0
  | some ch => ch.dataqsiz

/-- Goroutines parked in `Increment` on `p`. -/
def Pipe.waitingInc (p : Pipe) (h : Heap) : List Nat :=
  match h[p.c]? with
  | none => []
  | some ch => ch.sendq

/-- Goroutines parked in `Decrement` on `p`. -/
def Pipe.waitingDec (p : Pipe) (h : Heap) : List Nat :=
  match h[p.c]? with
  | none => []
  | some ch => ch.recvq

/-- Whether a call acquires a slot (`Increment`, or `One`, which runs it). -/
def Call.acquires : Call → Bool
  | .Decrement => false
  | _ => true

/-- Increment calls on `p` completed by one recorded step: the issuing call if
it acquires and returned at once, or the parked one a `Decrement` released. -/
def incDone (p : Pipe) (x : Req × Effect) : Nat :=
  if x.1.p = p then
    if x.1.call.acquires then (if x.2.status = .returned then 1 else 0)
    else (if x.2.woken.isSome then 1 else 0)
  else 0

/-- Decrement calls on `p` completed by one recorded step. -/
def decDone (p : Pipe) (x : Req × Effect) : Nat :=
  if x.1.p = p then
    if x.1.call.acquires then (if x.2.woken.isSome then 1 else 0)
    else (if x.2.status = .returned then 1 else 0)
  else 0

/-- Increment calls on `p` that have returned in a recorded execution. -/
def incReturned (p : Pipe) (tr : List (Req × Effect)) : Nat :=
  (tr.map (incDone p)).sum

/-- Decrement calls on `p` that have returned in a recorded execution. -/
def decReturned (p : Pipe) (tr : List (Req × Effect)) : Nat :=
  (tr.map (decDone p)).sum

/-- Invariant of a channel state: the buffer is within capacity, receivers
are parked only on an empty channel without parked senders, senders only on a
full one. -/
def hchan.wf (c : hchan) : Prop :=
  c.qcount ≤ c.dataqsiz ∧ (c.recvq ≠ [] → c.qcount = 0 ∧ c.sendq = []) ∧
    (c.sendq ≠ [] → c.qcount = c.dataqsiz)

/-- The channel step of a call: a send if it acquires, else a receive. -/
def chanStep (call : Call) (c : hchan) (g : Nat) : hchan × Effect :=
  if call.acquires then chansend c g else chanrecv c g

/-- Increment requests on `p`, one per goroutine of `gs`. -/
def incs (p : Pipe) (gs : List Nat) : List Req :=
  gs.map (fun g => { p := p, call := .Increment, g := g })

/-- The single-threaded program of goroutine `g`: `n` times `Increment` then
`Decrement`. -/
def pairs (p : Pipe) (g : Nat) : Nat → List Req
  | 0 => []
  | n + 1 => { p := p, call := .Increment, g := g } ::
      { p := p, call := .Decrement, g := g } :: pairs p g n

/-! ## Channel lemmas -/

theorem makechan_ofNat (W : Nat) :
    makechan (W : Int) = .ok { qcount := 0, dataqsiz := W, recvq := [], sendq := [] } := by
  simp [makechan]

theorem makechan_neg (w : Int) (hw : w < 0) :
    makechan w = .error "makechan: size out of range" := by
  simp [makechan, hw]

theorem New_ofNat (W : Nat) (h : Heap) :
    New (W : Int) h =
      .ok ({ c := h.length }, h ++ [{ qcount := 0, dataqsiz := W, recvq := [], sendq := [] }]) := by
  simp [New, makechan_ofNat]

theorem New_ofNat_inv {W : Nat} {h0 h1 : Heap} {p : Pipe} (hnew : New (W : Int) h0 = .ok (p, h1)) :
    p = { c := h0.length } ∧
      h1 = h0 ++ [{ qcount := 0, dataqsiz := W, recvq := [], sendq := [] }] := by
  rw [New_ofNat] at hnew
  injection hnew with hnew
  injection hnew with hp hh
  exact ⟨hp.symm, hh.symm⟩

theorem New_get {W : Nat} {h0 h1 : Heap} {p : Pipe} (hnew : New (W : Int) h0 = .ok (p, h1)) :
    h1[p.c]? = some { qcount := 0, dataqsiz := W, recvq := [], sendq := [] } := by
  obtain ⟨hp, hh⟩ := New_ofNat_inv hnew
  subst hp hh
  simp

theorem wf_empty (W : Nat) :
    hchan.wf { qcount := 0, dataqsiz := W, recvq := [], sendq := [] } := by
  simp [hchan.wf]

theorem chansend_dataqsiz (c : hchan) (g : Nat) : (chansend c g).1.dataqsiz = c.dataqsiz := by
  unfold chansend
  split
  · rfl
  · split <;> rfl

theorem chanrecv_dataqsiz (c : hchan) (g : Nat) : (chanrecv c g).1.dataqsiz = c.dataqsiz := by
  unfold chanrecv
  split
  · rfl
  · split <;> rfl

theorem chansend_wf (c : hchan) (g : Nat) (hc : c.wf) : (chansend c g).1.wf := by
  obtain ⟨h1, h2, h3⟩ := hc
  unfold chansend
  split
  · rename_i r rs hr
    have hne : c.recvq ≠ [] := by simp [hr]
    obtain ⟨hq, hs⟩ := h2 hne
    refine ⟨h1, fun _ => ⟨hq, hs⟩, fun hx => absurd hs hx⟩
  · rename_i hr
    split
    · rename_i hlt
      refine ⟨hlt, fun hx => absurd hr hx, fun hx => ?_⟩
      have := h3 hx
      omega
    · rename_i hge
      refine ⟨h1, fun hx => absurd hr hx, fun _ => ?_⟩
      show c.qcount = c.dataqsiz
      omega

theorem chanrecv_wf (c : hchan) (g : Nat) (hc : c.wf) : (chanrecv c g).1.wf := by
  obtain ⟨h1, h2, h3⟩ := hc
  unfold chanrecv
  split
  · rename_i s ss hs
    have hne : c.sendq ≠ [] := by simp [hs]
    have hq := h3 hne
    have hr : c.recvq = [] := by
      by_contra hx
      exact hne (h2 hx).2
    refine ⟨h1, fun hx => absurd hr hx, fun _ => hq⟩
  · rename_i hs
    split
    · rename_i hpos
      have hr : c.recvq = [] := by
        by_contra hx
        have := (h2 hx).1
        omega
      refine ⟨?_, fun hx => absurd hr hx, fun hx => absurd hs hx⟩
      show c.qcount - 1 ≤ c.dataqsiz
      omega
    · rename_i hz
      refine ⟨h1, fun _ => ⟨?_, hs⟩, fun hx => absurd hs hx⟩
      show c.qcount = 0
      omega

theorem chansend_count (c : hchan) (g : Nat) :
    (chansend c g).1.qcount + (if (chansend c g).2.woken.isSome then 1 else 0) =
      c.qcount + (if (chansend c g).2.status = .returned then 1 else 0) := by
  unfold chansend
  split
  · simp
  · split <;> simp

theorem chanrecv_count (c : hchan) (g : Nat) :
    (chanrecv c g).1.qcount + (if (chanrecv c g).2.status = .returned then 1 else 0) =
      c.qcount + (if (chanrecv c g).2.woken.isSome then 1 else 0) := by
  unfold chanrecv
  split
  · simp
  · split
    · simp
      omega
    · simp

/-! ## Heap lemmas -/

theorem Pipe.ne_c {p q : Pipe} (hne : p ≠ q) : p.c ≠ q.c := by
  intro hc
  apply hne
  cases p
  cases q
  simp_all

theorem apply_same (r : Req) (h : Heap) (ch : hchan) (hget : h[r.p.c]? = some ch) :
    r.apply h = (h.set r.p.c (chanStep r.call ch r.g).1, (chanStep r.call ch r.g).2) := by
  unfold Req.apply chanStep
  cases r.call <;>
    simp [Pipe.Increment, Pipe.Decrement, Pipe.One, hget, Call.acquires]

theorem apply_nil (r : Req) (h : Heap) (hget : h[r.p.c]? = none) :
    r.apply h = (h, ⟨.blocked, none⟩) := by
  unfold Req.apply
  cases r.call <;> simp [Pipe.Increment, Pipe.Decrement, Pipe.One, hget]

theorem apply_get_same (r : Req) (h : Heap) (ch : hchan) (hget : h[r.p.c]? = some ch) :
    (r.apply h).1[r.p.c]? = some (chanStep r.call ch r.g).1 := by
  rw [apply_same r h ch hget]
  have hlt : r.p.c < h.length := by
    by_contra hx
    rw [List.getElem?_eq_none (by omega)] at hget
    cases hget
  simp [List.getElem?_set_self hlt]

theorem apply_get_other (r : Req) (h : Heap) (p : Pipe) (hne : r.p ≠ p) :
    (r.apply h).1[p.c]? = h[p.c]? := by
  cases hget : h[r.p.c]? with
  | none => rw [apply_nil r h hget]
  | some ch =>
    rw [apply_same r h ch hget]
    simp [List.getElem?_set_ne (Pipe.ne_c hne)]

theorem apply_length (r : Req) (h : Heap) : (r.apply h).1.length = h.length := by
  cases hget : h[r.p.c]? with
  | none => rw [apply_nil r h hget]
  | some ch =>
    rw [apply_same r h ch hget]
    simp

theorem chanStep_dataqsiz (call : Call) (c : hchan) (g : Nat) :
    (chanStep call c g).1.dataqsiz = c.dataqsiz := by
  unfold chanStep
  split
  · exact chansend_dataqsiz c g
  · exact chanrecv_dataqsiz c g

theorem chanStep_wf (call : Call) (c : hchan) (g : Nat) (hc : c.wf) :
    (chanStep call c g).1.wf := by
  unfold chanStep
  split
  · exact chansend_wf c g hc
  · exact chanrecv_wf c g hc

theorem incReturned_cons (p : Pipe) (x : Req × Effect) (tr : List (Req × Effect)) :
    incReturned p (x :: tr) = incDone p x + incReturned p tr := by
  simp [incReturned]

theorem decReturned_cons (p : Pipe) (x : Req × Effect) (tr : List (Req × Effect)) :
    decReturned p (x :: tr) = decDone p x + decReturned p tr := by
  simp [decReturned]

theorem chanStep_count (r : Req) (c : hchan) :
    (chanStep r.call c r.g).1.qcount + decDone r.p (r, (chanStep r.call c r.g).2) =
      c.qcount + incDone r.p (r, (chanStep r.call c r.g).2) := by
  unfold chanStep incDone decDone
  cases hacq : r.call.acquires
  · simpa using chanrecv_count c r.g
  · simpa using chansend_count c r.g

theorem done_other (r : Req) (e : Effect) (p : Pipe) (hne : r.p ≠ p) :
    incDone p (r, e) = 0 ∧ decDone p (r, e) = 0 := by
  simp [incDone, decDone, hne]

/-- Along every execution the channel of `p` keeps its invariant and its
capacity, and its token count moves with the calls that complete. -/
theorem exec_inv (p : Pipe) (reqs : List Req) :
    ∀ (h : Heap) (ch : hchan), h[p.c]? = some ch → ch.wf →
      ∃ ch', (exec h reqs).1[p.c]? = some ch' ∧ ch'.wf ∧ ch'.dataqsiz = ch.dataqsiz ∧
        ch'.qcount + decReturned p (exec h reqs).2 =
          ch.qcount + incReturned p (exec h reqs).2 := by
  induction reqs with
  | nil =>
    intro h ch hget hwf
    exact ⟨ch, by simpa [exec] using hget, hwf, rfl, by simp [exec, incReturned, decReturned]⟩
  | cons r rs ih =>
    intro h ch hget hwf
    by_cases hp : r.p = p
    · have hget2 : h[r.p.c]? = some ch := by rw [hp]; exact hget
      have hstep := apply_get_same r h ch hget2
      rw [hp] at hstep
      obtain ⟨ch', h1, h2, h3, h4⟩ :=
        ih (r.apply h).1 _ hstep (chanStep_wf r.call ch r.g hwf)
      refine ⟨ch', by simpa [exec] using h1, h2, ?_, ?_⟩
      · rw [h3, chanStep_dataqsiz]
      · have hc := chanStep_count r ch
        have he : (r.apply h).2 = (chanStep r.call ch r.g).2 := by
          rw [apply_same r h ch hget2]
        rw [hp] at hc
        simp only [exec, incReturned_cons, decReturned_cons, he]
        omega
    · have hstep : (r.apply h).1[p.c]? = some ch := by
        rw [apply_get_other r h p hp]; exact hget
      obtain ⟨ch', h1, h2, h3, h4⟩ := ih (r.apply h).1 ch hstep hwf
      refine ⟨ch', by simpa [exec] using h1, h2, h3, ?_⟩
      obtain ⟨hi, hd⟩ := done_other r (r.apply h).2 p hp
      simp only [exec, incReturned_cons, decReturned_cons, hi, hd]
      omega

/-- Reachable states of a pipe built by `New W`: the channel exists, satisfies
the invariant, has capacity `W`, and its tokens count the completed calls. -/
theorem reach {W : Nat} {h0 h1 : Heap} {p : Pipe} (hnew : New (W : Int) h0 = .ok (p, h1))
    (reqs : List Req) :
    ∃ ch, (exec h1 reqs).1[p.c]? = some ch ∧ ch.wf ∧ ch.dataqsiz = W ∧
      ch.qcount + decReturned p (exec h1 reqs).2 = incReturned p (exec h1 reqs).2 := by
  obtain ⟨ch, h1', h2, h3, h4⟩ := exec_inv p reqs h1 _ (New_get hnew) (wf_empty W)
  exact ⟨ch, h1', h2, h3, by simpa using h4⟩

theorem Increment_some (p : Pipe) (g : Nat) (h : Heap) (ch : hchan) (hget : h[p.c]? = some ch) :
    p.Increment g h = (h.set p.c (chansend ch g).1, (chansend ch g).2) := by
  simp [Pipe.Increment, hget]

theorem Decrement_some (p : Pipe) (g : Nat) (h : Heap) (ch : hchan) (hget : h[p.c]? = some ch) :
    p.Decrement g h = (h.set p.c (chanrecv ch g).1, (chanrecv ch g).2) := by
  simp [Pipe.Decrement, hget]

theorem get_set_same (h : Heap) (i : Nat) (ch ch' : hchan) (hget : h[i]? = some ch) :
    (h.set i ch')[i]? = some ch' := by
  have hlt : i < h.length := by
    by_contra hx
    rw [List.getElem?_eq_none (by omega)] at hget
    cases hget
  simp [List.getElem?_set_self hlt]

theorem chanrecv_returned_iff (c : hchan) (g : Nat) :
    (chanrecv c g).2.status = .returned ↔ (0 < c.qcount ∨ c.sendq ≠ []) := by
  unfold chanrecv
  split
  · rename_i s ss hs
    simp [hs]
  · rename_i hs
    split
    · rename_i hpos
      simp [hpos]
    · rename_i hz
      simp [hs, hz]

theorem chanrecv_blocked_mem (c : hchan) (g : Nat) (hb : (chanrecv c g).2.status = .blocked) :
    g ∈ (chanrecv c g).1.recvq := by
  unfold chanrecv at hb ⊢
  split
  · rename_i s ss hs
    simp [hs] at hb
  · rename_i hs
    split
    · rename_i hpos
      simp [hs, hpos] at hb
    · simp

theorem chanrecv_chansend_qcount (c : hchan) (g g' : Nat) (hc : c.wf) :
    (chanrecv (chansend c g).1 g').1.qcount = c.qcount := by
  obtain ⟨h1, h2, h3⟩ := hc
  cases hr : c.recvq with
  | cons r rs =>
    have hne : c.recvq ≠ [] := by simp [hr]
    obtain ⟨hq, hs⟩ := h2 hne
    simp [chansend, chanrecv, hr, hs, hq]
  | nil =>
    by_cases hlt : c.qcount < c.dataqsiz
    · have hs : c.sendq = [] := by
        by_contra hx
        have := h3 hx
        omega
      simp [chansend, chanrecv, hr, hs, hlt]
    · cases hs : c.sendq <;> simp [chansend, chanrecv, hr, hlt, hs]

theorem New_inv {w : Int} {h0 h1 : Heap} {p : Pipe} (hnew : New w h0 = .ok (p, h1)) :
    p.c = h0.length ∧ h1.length = h0.length + 1 := by
  unfold New at hnew
  split at hnew
  · cases hnew
  · injection hnew with hnew
    injection hnew with hp hh
    subst hp hh
    simp

theorem exec_length (reqs : List Req) : ∀ h : Heap, (exec h reqs).1.length = h.length := by
  induction reqs with
  | nil => intro h; rfl
  | cons r rs ih =>
    intro h
    simp only [exec]
    rw [ih, apply_length]

theorem exec_frame (q : Pipe) (reqs : List Req) :
    ∀ h : Heap, (∀ r ∈ reqs, r.p ≠ q) → (exec h reqs).1[q.c]? = h[q.c]? := by
  induction reqs with
  | nil => intro h _; rfl
  | cons r rs ih =>
    intro h hall
    simp only [exec]
    rw [ih _ (fun x hx => hall x (List.mem_cons_of_mem _ hx)),
      apply_get_other r h q (hall r (List.mem_cons_self _ _))]

theorem frame_of_get (q : Pipe) (h h' : Heap) (hget : h'[q.c]? = h[q.c]?) :
    q.held h' = q.held h ∧ q.capacity h' = q.capacity h ∧
      (∀ g, (q.Increment g h').2 = (q.Increment g h).2) ∧
      (∀ g, (q.Decrement g h').2 = (q.Decrement g h).2) := by
  simp [Pipe.held, Pipe.capacity, Pipe.Increment, Pipe.Decrement, hget]
  constructor
  · intro g
    cases h[q.c]? <;> rfl
  · intro g
    cases h[q.c]? <;> rfl

/-! ## Runs of calls -/

theorem chansend_room (c : hchan) (g : Nat) (hr : c.recvq = []) (hlt : c.qcount < c.dataqsiz) :
    chansend c g = ({ c with qcount := c.qcount + 1 }, ⟨.returned, none⟩) := by
  simp [chansend, hr, hlt]

theorem chansend_full (c : hchan) (g : Nat) (hr : c.recvq = []) (hge : ¬ c.qcount < c.dataqsiz) :
    chansend c g = ({ c with sendq := c.sendq ++ [g] }, ⟨.blocked, none⟩) := by
  simp [chansend, hr, hge]

theorem chansend_sendq_mem (c : hchan) (g g' : Nat) (hmem : g ∈ c.sendq) :
    g ∈ (chansend c g').1.sendq := by
  unfold chansend
  split
  · exact hmem
  · split
    · exact hmem
    · simp [hmem]

theorem exec_incs_cons (p : Pipe) (g : Nat) (gs : List Nat) (h : Heap) (ch : hchan)
    (hget : h[p.c]? = some ch) :
    exec h (incs p (g :: gs)) =
      ((exec (h.set p.c (chansend ch g).1) (incs p gs)).1,
        (⟨p, .Increment, g⟩, (chansend ch g).2) ::
          (exec (h.set p.c (chansend ch g).1) (incs p gs)).2) := by
  simp [incs, exec, Req.apply, Increment_some p g h ch hget]

/-- While there is room and no receiver is parked, every `Increment` of a run
returns at once and adds one token. -/
theorem exec_incs_room (p : Pipe) (gs : List Nat) :
    ∀ (h : Heap) (ch : hchan), h[p.c]? = some ch → ch.recvq = [] →
      ch.qcount + gs.length ≤ ch.dataqsiz →
      (exec h (incs p gs)).1[p.c]? = some { ch with qcount := ch.qcount + gs.length } ∧
        (exec h (incs p gs)).2 = (incs p gs).map (fun r => (r, ⟨.returned, none⟩)) := by
  induction gs with
  | nil =>
    intro h ch hget _ _
    simpa [incs, exec] using hget
  | cons g gs ih =>
    intro h ch hget hr hle
    simp only [List.length_cons] at hle
    have hlt : ch.qcount < ch.dataqsiz := by omega
    rw [exec_incs_cons p g gs h ch hget, chansend_room ch g hr hlt]
    obtain ⟨h1, h2⟩ := ih (h.set p.c { ch with qcount := ch.qcount + 1 })
      { ch with qcount := ch.qcount + 1 } (get_set_same h p.c ch _ hget) hr (by simp; omega)
    refine ⟨?_, ?_⟩
    · rw [h1]
      simp only [List.length_cons]
      congr 2
      omega
    · rw [h2]
      simp [incs]

theorem exec_append (a b : List Req) :
    ∀ h : Heap, exec h (a ++ b) =
      ((exec (exec h a).1 b).1, (exec h a).2 ++ (exec (exec h a).1 b).2) := by
  induction a with
  | nil => intro h; simp [exec]
  | cons r rs ih =>
    intro h
    show exec h (r :: (rs ++ b)) = _
    simp only [exec]
    rw [ih]
    rfl

theorem incs_append (p : Pipe) (a b : List Nat) : incs p (a ++ b) = incs p a ++ incs p b := by
  simp [incs]

/-- A goroutine parked in `Increment` on `p` stays parked as long as no
`Decrement` is called on `p`. -/
theorem exec_acquires_waiting (p : Pipe) (g : Nat) (rest : List Req) :
    ∀ h : Heap, (∀ r ∈ rest, r.p = p → r.call.acquires = true) → g ∈ p.waitingInc h →
      g ∈ p.waitingInc (exec h rest).1 := by
  induction rest with
  | nil => intro h _ hmem; exact hmem
  | cons r rs ih =>
    intro h hall hmem
    simp only [exec]
    apply ih _ (fun x hx => hall x (List.mem_cons_of_mem _ hx))
    by_cases hp : r.p = p
    · cases hget : h[p.c]? with
      | none => simp [Pipe.waitingInc, hget] at hmem
      | some ch =>
        have hget2 : h[r.p.c]? = some ch := by rw [hp]; exact hget
        have hacq := hall r (List.mem_cons_self _ _) hp
        have hstep := apply_get_same r h ch hget2
        rw [hp] at hstep
        simp only [Pipe.waitingInc, hget] at hmem
        simp only [Pipe.waitingInc, hstep, chanStep, hacq, if_true]
        exact chansend_sendq_mem ch g r.g hmem
    · simp only [Pipe.waitingInc, apply_get_other r h p hp]
      exact hmem

/-- On an empty channel with room, a single goroutine alternating `Increment`
and `Decrement` never parks and leaves the channel empty. -/
theorem exec_pairs (p : Pipe) (g W : Nat) (hW : 1 ≤ W) (n : Nat) :
    ∀ h : Heap, h[p.c]? = some ⟨0, W, [], []⟩ →
      (exec h (pairs p g n)).1[p.c]? = some ⟨0, W, [], []⟩ ∧
        ∀ x ∈ (exec h (pairs p g n)).2, x.2 = ⟨.returned, none⟩ := by
  induction n with
  | zero =>
    intro h hget
    simpa [pairs, exec] using hget
  | succ n ih =>
    intro h hget
    have hlt : 0 < W := by omega
    have hget2 := get_set_same h p.c _ (chansend ⟨0, W, [], []⟩ g).1 hget
    have hs : chansend ⟨0, W, [], []⟩ g = (⟨1, W, [], []⟩, ⟨.returned, none⟩) := by
      simp [chansend, hlt]
    have hr : chanrecv ⟨1, W, [], []⟩ g = (⟨0, W, [], []⟩, ⟨.returned, none⟩) := by
      simp [chanrecv]
    rw [hs] at hget2
    have hget3 := get_set_same _ p.c _ (chanrecv ⟨1, W, [], []⟩ g).1 hget2
    rw [hr] at hget3
    obtain ⟨h1, h2⟩ := ih _ hget3
    simp only [pairs, exec, Req.apply, Increment_some p g h _ hget, hs,
      Decrement_some p g _ _ hget2, hr]
    refine ⟨h1, ?_⟩
    intro x hx
    simp only [List.mem_cons] at hx
    rcases hx with hx | hx | hx
    · rw [hx]
    · rw [hx]
    · exact h2 x hx

/-- On a channel of capacity zero with no receiver parked, a run without
`Decrement` on `p` completes no call on `p`: each one parks. -/
theorem exec_zero (p : Pipe) (reqs : List Req) :
    ∀ (h : Heap) (ch : hchan), h[p.c]? = some ch → ch.dataqsiz = 0 → ch.recvq = [] →
      (∀ r ∈ reqs, r.p = p → r.call.acquires = true) →
      incReturned p (exec h reqs).2 = 0 ∧
        ∀ x ∈ (exec h reqs).2, x.1.p = p → x.2 = ⟨.blocked, none⟩ := by
  induction reqs with
  | nil =>
    intro h ch _ _ _ _
    simp [exec, incReturned]
  | cons r rs ih =>
    intro h ch hget hcap hr hall
    have hrest := fun x hx => hall x (List.mem_cons_of_mem _ hx)
    by_cases hp : r.p = p
    · have hget2 : h[r.p.c]? = some ch := by rw [hp]; exact hget
      have hacq := hall r (List.mem_cons_self _ _) hp
      have hge : ¬ ch.qcount < ch.dataqsiz := by omega
      have hstep := apply_get_same r h ch hget2
      have he : (r.apply h).2 = ⟨.blocked, none⟩ := by
        rw [apply_same r h ch hget2]
        simp [chanStep, hacq, chansend_full ch r.g hr hge]
      rw [hp] at hstep
      simp only [chanStep, hacq, if_true, chansend_full ch r.g hr hge] at hstep
      obtain ⟨h1, h2⟩ := ih _ _ hstep hcap hr hrest
      simp only [exec, incReturned_cons, h1, he]
      refine ⟨by simp [incDone, hacq], ?_⟩
      intro x hx hxp
      simp only [List.mem_cons] at hx
      rcases hx with hx | hx
      · rw [hx]
      · exact h2 x hx hxp
    · have hstep : (r.apply h).1[p.c]? = some ch := by
        rw [apply_get_other r h p hp]; exact hget
      obtain ⟨h1, h2⟩ := ih _ _ hstep hcap hr hrest
      simp only [exec, incReturned_cons, h1, (done_other r _ p hp).1]
      refine ⟨trivial, ?_⟩
      intro x hx hxp
      simp only [List.mem_cons] at hx
      rcases hx with hx | hx
      · rw [hx] at hxp
        exact absurd hxp hp
      · exact h2 x hx hxp

/-! ## The claims -/

theorem held_count_aux {W : Nat} {h0 h1 : Heap} {p : Pipe}
    (hnew : New (W : Int) h0 = .ok (p, h1)) (reqs : List Req) :
    p.held (exec h1 reqs).1 ≤ W ∧
      p.held (exec h1 reqs).1 + decReturned p (exec h1 reqs).2 =
        incReturned p (exec h1 reqs).2 := by
  obtain ⟨ch, hget, hwf, hcap, hcnt⟩ := reach hnew reqs
  have hle := hwf.1
  simp only [Pipe.held, hget]
  exact ⟨by omega, hcnt⟩

/-- C1 (capacity bound): on a pipe built by `New(W)`, after every interleaving
of calls (on this and on other pipes) the slots held, that is the tokens in the
channel, are at most `W`, the capacity is still `W`, and the slots held are the
Increment calls that have returned minus the Decrement calls that have
returned, which is therefore never negative. -/
theorem capacity_bound (W : Nat) (h0 h1 : Heap) (p : Pipe)
    (hnew : New (W : Int) h0 = .ok (p, h1)) (reqs : List Req) :
    p.held (exec h1 reqs).1 ≤ W ∧ p.capacity (exec h1 reqs).1 = W ∧
      decReturned p (exec h1 reqs).2 ≤ incReturned p (exec h1 reqs).2 ∧
      incReturned p (exec h1 reqs).2 - decReturned p (exec h1 reqs).2 =
        p.held (exec h1 reqs).1 := by
  obtain ⟨ch, hget, hwf, hcap, hcnt⟩ := reach hnew reqs
  have hle := hwf.1
  simp only [Pipe.held, Pipe.capacity, hget]
  refine ⟨by omega, hcap, by omega, by omega⟩

theorem capacity_bound_witness :
    Pipe.held ⟨0⟩ (exec [⟨0, 2, [], []⟩]
        [⟨⟨0⟩, .Increment, 0⟩, ⟨⟨0⟩, .Increment, 1⟩, ⟨⟨0⟩, .One, 2⟩, ⟨⟨0⟩, .Decrement, 0⟩]).1 ≤ 2 ∧
      Pipe.capacity ⟨0⟩ (exec [⟨0, 2, [], []⟩]
        [⟨⟨0⟩, .Increment, 0⟩, ⟨⟨0⟩, .Increment, 1⟩, ⟨⟨0⟩, .One, 2⟩, ⟨⟨0⟩, .Decrement, 0⟩]).1 = 2 ∧
      decReturned ⟨0⟩ (exec [⟨0, 2, [], []⟩]
        [⟨⟨0⟩, .Increment, 0⟩, ⟨⟨0⟩, .Increment, 1⟩, ⟨⟨0⟩, .One, 2⟩, ⟨⟨0⟩, .Decrement, 0⟩]).2 ≤
        incReturned ⟨0⟩ (exec [⟨0, 2, [], []⟩]
        [⟨⟨0⟩, .Increment, 0⟩, ⟨⟨0⟩, .Increment, 1⟩, ⟨⟨0⟩, .One, 2⟩, ⟨⟨0⟩, .Decrement, 0⟩]).2 ∧
      incReturned ⟨0⟩ (exec [⟨0, 2, [], []⟩]
        [⟨⟨0⟩, .Increment, 0⟩, ⟨⟨0⟩, .Increment, 1⟩, ⟨⟨0⟩, .One, 2⟩, ⟨⟨0⟩, .Decrement, 0⟩]).2 -
        decReturned ⟨0⟩ (exec [⟨0, 2, [], []⟩]
        [⟨⟨0⟩, .Increment, 0⟩, ⟨⟨0⟩, .Increment, 1⟩, ⟨⟨0⟩, .One, 2⟩, ⟨⟨0⟩, .Decrement, 0⟩]).2 =
        Pipe.held ⟨0⟩ (exec [⟨0, 2, [], []⟩]
        [⟨⟨0⟩, .Increment, 0⟩, ⟨⟨0⟩, .Increment, 1⟩, ⟨⟨0⟩, .One, 2⟩, ⟨⟨0⟩, .Decrement, 0⟩]).1 :=
  capacity_bound 2 [] [⟨0, 2, [], []⟩] ⟨0⟩ (New_ofNat 2 [])
    [⟨⟨0⟩, .Increment, 0⟩, ⟨⟨0⟩, .Increment, 1⟩, ⟨⟨0⟩, .One, 2⟩, ⟨⟨0⟩, .Decrement, 0⟩]

/-- C10: `New(w)` panics exactly when `w` is negative; for every `w ≥ 0`,
zero included, it returns a pipe on a freshly allocated channel whose capacity
is `w` and which holds no slot. -/
theorem New_spec (w : Int) (h : Heap) :
    ((∃ e, New w h = .error e) ↔ w < 0) ∧
      (0 ≤ w → ∃ p h1, New w h = .ok (p, h1) ∧ (p.capacity h1 : Int) = w ∧ p.held h1 = 0 ∧
        p.waitingInc h1 = [] ∧ p.waitingDec h1 = []) := by
  constructor
  · constructor
    · rintro ⟨e, he⟩
      by_contra hw
      simp [New, makechan, hw] at he
    · intro hw
      exact ⟨"makechan: size out of range", by simp [New, makechan, hw]⟩
  · intro hw
    have hn : ¬ w < 0 := by omega
    refine ⟨{ c := h.length }, h ++ [{ qcount := 0, dataqsiz := w.toNat, recvq := [], sendq := [] }],
      by simp [New, makechan, hn], ?_⟩
    simp [Pipe.capacity, Pipe.held, Pipe.waitingInc, Pipe.waitingDec]
    omega

/-- C3, counterexample: on a fresh `New(1)` a `Decrement` call does not
complete; it parks its caller. -/
theorem decrement_blocks_counterexample :
    New (1 : Int) [] = .ok (⟨0⟩, [⟨0, 1, [], []⟩]) ∧
      (Pipe.Decrement ⟨0⟩ 5 [⟨0, 1, [], []⟩]).2.status = .blocked ∧
      Pipe.waitingDec ⟨0⟩ (Pipe.Decrement ⟨0⟩ 5 [⟨0, 1, [], []⟩]).1 = [5] := by
  refine ⟨rfl, rfl, rfl⟩

/-- C3, amended: in every reachable state of a pipe built by `New(W)` a
`Decrement` call completes at once exactly when a slot is held or an
`Increment` is parked (for `W ≥ 1`: exactly when a slot is held); otherwise it
parks its caller, so `Decrement` can suspend as well as `Increment`. -/
theorem decrement_spec (W : Nat) (h0 h1 : Heap) (p : Pipe)
    (hnew : New (W : Int) h0 = .ok (p, h1)) (reqs : List Req) (g : Nat) :
    ((p.Decrement g (exec h1 reqs).1).2.status = .returned ↔
        (0 < p.held (exec h1 reqs).1 ∨ p.waitingInc (exec h1 reqs).1 ≠ [])) ∧
      (1 ≤ W → ((p.Decrement g (exec h1 reqs).1).2.status = .returned ↔
        0 < p.held (exec h1 reqs).1)) ∧
      ((p.Decrement g (exec h1 reqs).1).2.status = .blocked →
        g ∈ p.waitingDec (p.Decrement g (exec h1 reqs).1).1) := by
  obtain ⟨ch, hget, hwf, hcap, -⟩ := reach hnew reqs
  have hiff := chanrecv_returned_iff ch g
  simp only [Decrement_some p g _ ch hget, Pipe.held, Pipe.waitingInc, Pipe.waitingDec, hget,
    get_set_same _ _ ch _ hget]
  refine ⟨hiff, fun hW => ?_, chanrecv_blocked_mem ch g⟩
  rw [hiff]
  constructor
  · rintro (hpos | hs)
    · exact hpos
    · have := hwf.2.2 hs
      omega
  · exact Or.inl

theorem decrement_spec_witness :
    New (1 : Int) [] = .ok (⟨0⟩, [⟨0, 1, [], []⟩]) ∧
      (Pipe.Decrement ⟨0⟩ 1 (exec [⟨0, 1, [], []⟩] [⟨⟨0⟩, .Increment, 0⟩]).1).2.status =
        .returned :=
  ⟨rfl, (decrement_spec 1 [] [⟨0, 1, [], []⟩] ⟨0⟩ (New_ofNat 1 [])
    [⟨⟨0⟩, .Increment, 0⟩] 1).1.2 (Or.inl (by decide))⟩

/-- C6 (One balance): in every reachable state of a pipe built by `New(W)`,
`p.One()` performs exactly the step of `p.Increment()` and returns the function
`p.Decrement` of the same pipe, so invoking the returned function once after
`One` is `Increment` followed by `Decrement`; the slots held afterwards are the
slots held before. -/
theorem one_balance (W : Nat) (h0 h1 : Heap) (p : Pipe)
    (hnew : New (W : Int) h0 = .ok (p, h1)) (reqs : List Req) (g g' : Nat) :
    (p.One g (exec h1 reqs).1).1 = p.Increment g (exec h1 reqs).1 ∧
      (p.One g (exec h1 reqs).1).2 = p.Decrement ∧
      (p.One g (exec h1 reqs).1).2 g' (p.One g (exec h1 reqs).1).1.1 =
        p.Decrement g' (p.Increment g (exec h1 reqs).1).1 ∧
      p.held ((p.One g (exec h1 reqs).1).2 g' (p.One g (exec h1 reqs).1).1.1).1 =
        p.held (exec h1 reqs).1 := by
  obtain ⟨ch, hget, hwf, -, -⟩ := reach hnew reqs
  refine ⟨rfl, rfl, rfl, ?_⟩
  simp only [Pipe.One, Increment_some p g _ ch hget]
  have hget2 := get_set_same (exec h1 reqs).1 p.c ch (chansend ch g).1 hget
  simp only [Decrement_some p g' _ _ hget2, Pipe.held, get_set_same _ _ _ _ hget2, hget]
  exact chanrecv_chansend_qcount ch g g' hwf

theorem one_balance_witness :
    New (2 : Int) [] = .ok (⟨0⟩, [⟨0, 2, [], []⟩]) ∧
      Pipe.held ⟨0⟩ ((Pipe.One ⟨0⟩ 1 (exec [⟨0, 2, [], []⟩] [⟨⟨0⟩, .Increment, 0⟩]).1).2 1
        (Pipe.One ⟨0⟩ 1 (exec [⟨0, 2, [], []⟩] [⟨⟨0⟩, .Increment, 0⟩]).1).1.1).1 =
        Pipe.held ⟨0⟩ (exec [⟨0, 2, [], []⟩] [⟨⟨0⟩, .Increment, 0⟩]).1 :=
  ⟨rfl, (one_balance 2 [] [⟨0, 2, [], []⟩] ⟨0⟩ (New_ofNat 2 [])
    [⟨⟨0⟩, .Increment, 0⟩] 1 1).2.2.2⟩

/-- C9 (independence): two pipes built by separate `New` calls are distinct,
and any run of `Increment`, `Decrement` and `One` calls on one of them, from any
state, leaves the slots held and the capacity of the other unchanged, and with
them whether (and how) an `Increment` or `Decrement` on the other blocks. -/
theorem independence (wp wq : Int) (h0 h1 h2 : Heap) (p q : Pipe) (mid : List Req)
    (hp : New wp h0 = .ok (p, h1)) (hq : New wq (exec h1 mid).1 = .ok (q, h2)) :
    p ≠ q ∧
      (∀ (h : Heap) (reqs : List Req), (∀ r ∈ reqs, r.p = p) →
        q.held (exec h reqs).1 = q.held h ∧ q.capacity (exec h reqs).1 = q.capacity h ∧
        (∀ g, (q.Increment g (exec h reqs).1).2 = (q.Increment g h).2) ∧
        (∀ g, (q.Decrement g (exec h reqs).1).2 = (q.Decrement g h).2)) ∧
      (∀ (h : Heap) (reqs : List Req), (∀ r ∈ reqs, r.p = q) →
        p.held (exec h reqs).1 = p.held h ∧ p.capacity (exec h reqs).1 = p.capacity h ∧
        (∀ g, (p.Increment g (exec h reqs).1).2 = (p.Increment g h).2) ∧
        (∀ g, (p.Decrement g (exec h reqs).1).2 = (p.Decrement g h).2)) := by
  have hpc := New_inv hp
  have hqc := New_inv hq
  rw [exec_length] at hqc
  have hne : p ≠ q := by
    intro heq
    rw [heq] at hpc
    omega
  refine ⟨hne, fun h reqs hall => ?_, fun h reqs hall => ?_⟩
  · exact frame_of_get q h _ (exec_frame q reqs h (fun r hr => by rw [hall r hr]; exact hne))
  · exact frame_of_get p h _
      (exec_frame p reqs h (fun r hr => by rw [hall r hr]; exact fun hx => hne hx.symm))

theorem independence_witness :
    New (1 : Int) [] = .ok (⟨0⟩, [⟨0, 1, [], []⟩]) ∧
      New (1 : Int) (exec [⟨0, 1, [], []⟩] []).1 = .ok (⟨1⟩, [⟨0, 1, [], []⟩, ⟨0, 1, [], []⟩]) ∧
      (Pipe.Increment ⟨1⟩ 9 (exec [⟨0, 1, [], []⟩, ⟨0, 1, [], []⟩]
        [⟨⟨0⟩, .Increment, 0⟩]).1).2 =
        (Pipe.Increment ⟨1⟩ 9 [⟨0, 1, [], []⟩, ⟨0, 1, [], []⟩]).2 :=
  ⟨rfl, rfl, ((independence 1 1 [] [⟨0, 1, [], []⟩] [⟨0, 1, [], []⟩, ⟨0, 1, [], []⟩] ⟨0⟩ ⟨1⟩ []
    rfl rfl).2.1 [⟨0, 1, [], []⟩, ⟨0, 1, [], []⟩] [⟨⟨0⟩, .Increment, 0⟩]
    (by decide)).2.2.1 9⟩

/-- C2, counterexample: on `New(1)` with a `Decrement` parked (no slot held),
an `Increment` returns at once but the slots held stay 0 instead of becoming 1:
the token goes straight to the parked `Decrement`. -/
theorem increment_handoff_counterexample :
    New (1 : Int) [] = .ok (⟨0⟩, [⟨0, 1, [], []⟩]) ∧
      Pipe.held ⟨0⟩ (exec [⟨0, 1, [], []⟩] [⟨⟨0⟩, .Decrement, 7⟩]).1 = 0 ∧
      (Pipe.Increment ⟨0⟩ 8 (exec [⟨0, 1, [], []⟩] [⟨⟨0⟩, .Decrement, 7⟩]).1).2 =
        ⟨.returned, some 7⟩ ∧
      Pipe.held ⟨0⟩
        (Pipe.Increment ⟨0⟩ 8 (exec [⟨0, 1, [], []⟩] [⟨⟨0⟩, .Decrement, 7⟩]).1).1 ≠ 0 + 1 := by
  refine ⟨rfl, rfl, rfl, by decide⟩

/-- C2, amended: in every reachable state of a pipe built by `New(W)` in which
no `Decrement` call is parked, with `h` slots held, an `Increment` returns at
once exactly when `h < W`, and then the slots held are `h + 1`; when `h = W`
the call parks and stays parked as long as no `Decrement` is called on the
pipe. -/
theorem increment_spec (W : Nat) (h0 h1 : Heap) (p : Pipe)
    (hnew : New (W : Int) h0 = .ok (p, h1)) (reqs : List Req) (g : Nat)
    (hnodec : p.waitingDec (exec h1 reqs).1 = []) :
    ((p.Increment g (exec h1 reqs).1).2.status = .returned ↔ p.held (exec h1 reqs).1 < W) ∧
      ((p.Increment g (exec h1 reqs).1).2.status = .returned →
        p.held (p.Increment g (exec h1 reqs).1).1 = p.held (exec h1 reqs).1 + 1) ∧
      (p.held (exec h1 reqs).1 = W →
        (p.Increment g (exec h1 reqs).1).2 = ⟨.blocked, none⟩ ∧
        ∀ rest : List Req, (∀ r ∈ rest, r.p = p → r.call.acquires = true) →
          g ∈ p.waitingInc (exec (p.Increment g (exec h1 reqs).1).1 rest).1) := by
  obtain ⟨ch, hget, hwf, hcap, -⟩ := reach hnew reqs
  simp only [Pipe.waitingDec, hget] at hnodec
  have hset := get_set_same (exec h1 reqs).1 p.c ch (chansend ch g).1 hget
  by_cases hlt : ch.qcount < ch.dataqsiz
  · have hs := chansend_room ch g hnodec hlt
    rw [hs] at hset
    simp only [Increment_some p g _ ch hget, Pipe.held, hget, hset, hs]
    refine ⟨⟨fun _ => by omega, fun _ => trivial⟩, fun _ => trivial, fun hx => by omega⟩
  · have hs := chansend_full ch g hnodec hlt
    rw [hs] at hset
    refine ⟨?_, ?_, ?_⟩
    · simp only [Increment_some p g _ ch hget, Pipe.held, hget, hs]
      constructor
      · intro hx
        cases hx
      · intro hx
        omega
    · simp only [Increment_some p g _ ch hget, hs]
      intro hx
      cases hx
    · intro _
      refine ⟨by simp only [Increment_some p g _ ch hget, hs], fun rest hall => ?_⟩
      apply exec_acquires_waiting p g rest _ hall
      simp [Increment_some p g _ ch hget, Pipe.waitingInc, hset, hs]

theorem increment_spec_witness :
    New (1 : Int) [] = .ok (⟨0⟩, [⟨0, 1, [], []⟩]) ∧
      Pipe.waitingDec ⟨0⟩ (exec [⟨0, 1, [], []⟩] [⟨⟨0⟩, .Increment, 0⟩]).1 = [] ∧
      ((Pipe.Increment ⟨0⟩ 1 (exec [⟨0, 1, [], []⟩] [⟨⟨0⟩, .Increment, 0⟩]).1).2.status =
          .returned ↔
        Pipe.held ⟨0⟩ (exec [⟨0, 1, [], []⟩] [⟨⟨0⟩, .Increment, 0⟩]).1 < 1) ∧
      (Pipe.Increment ⟨0⟩ 1 (exec [⟨0, 1, [], []⟩] [⟨⟨0⟩, .Increment, 0⟩]).1).2 =
        ⟨.blocked, none⟩ :=
  ⟨rfl, rfl, (increment_spec 1 [] [⟨0, 1, [], []⟩] ⟨0⟩ (New_ofNat 1 [])
    [⟨⟨0⟩, .Increment, 0⟩] 1 rfl).1, ((increment_spec 1 [] [⟨0, 1, [], []⟩] ⟨0⟩ (New_ofNat 1 [])
    [⟨⟨0⟩, .Increment, 0⟩] 1 rfl).2.2 rfl).1⟩

/-- C4, counterexample: on a fresh `New(1)` a `Decrement` with no prior
`Increment` does not complete (it parks) and leaves exactly 1 free slot, not
more than 1. -/
theorem unmatched_decrement_counterexample :
    New (1 : Int) [] = .ok (⟨0⟩, [⟨0, 1, [], []⟩]) ∧
      (Pipe.Decrement ⟨0⟩ 3 [⟨0, 1, [], []⟩]).2 = ⟨.blocked, none⟩ ∧
      ¬ 1 < Pipe.capacity ⟨0⟩ (Pipe.Decrement ⟨0⟩ 3 [⟨0, 1, [], []⟩]).1 -
        Pipe.held ⟨0⟩ (Pipe.Decrement ⟨0⟩ 3 [⟨0, 1, [], []⟩]).1 := by
  refine ⟨rfl, rfl, by decide⟩

/-- C4, amended: on a fresh `New(W)` a `Decrement` with no prior `Increment`
reports no error and does not complete: it parks its caller `d`, with no slot
held and the capacity still `W`.  The next `Increment` is then paired with it,
so the following `W + 1` `Increment` calls all return at once, the first of
them releasing `d`, and `W` slots are held afterwards. -/
theorem unmatched_decrement (W : Nat) (h0 h1 : Heap) (p : Pipe)
    (hnew : New (W : Int) h0 = .ok (p, h1)) (d g : Nat) (gs : List Nat)
    (hlen : gs.length = W) :
    (p.Decrement d h1).2 = ⟨.blocked, none⟩ ∧
      p.held (p.Decrement d h1).1 = 0 ∧ p.capacity (p.Decrement d h1).1 = W ∧
      p.waitingDec (p.Decrement d h1).1 = [d] ∧
      (exec (p.Decrement d h1).1 (incs p (g :: gs))).2 =
        (⟨p, .Increment, g⟩, ⟨.returned, some d⟩) ::
          (incs p gs).map (fun r => (r, ⟨.returned, none⟩)) ∧
      p.held (exec (p.Decrement d h1).1 (incs p (g :: gs))).1 = W ∧
      p.waitingInc (exec (p.Decrement d h1).1 (incs p (g :: gs))).1 = [] ∧
      p.waitingDec (exec (p.Decrement d h1).1 (incs p (g :: gs))).1 = [] := by
  have hget := New_get hnew
  have hr : chanrecv ⟨0, W, [], []⟩ d = (⟨0, W, [d], []⟩, ⟨.blocked, none⟩) := by
    simp [chanrecv]
  have hset := get_set_same h1 p.c _ (chanrecv ⟨0, W, [], []⟩ d).1 hget
  rw [hr] at hset
  have hs : chansend ⟨0, W, [d], []⟩ g = (⟨0, W, [], []⟩, ⟨.returned, some d⟩) := by
    simp [chansend]
  have hset2 := get_set_same _ p.c _ (chansend ⟨0, W, [d], []⟩ g).1 hset
  rw [hs] at hset2
  obtain ⟨e1, e2⟩ := exec_incs_room p gs _ ⟨0, W, [], []⟩ hset2 rfl (by simp [hlen])
  simp only [Decrement_some p d h1 _ hget, hr, Pipe.held, Pipe.capacity, Pipe.waitingDec,
    Pipe.waitingInc, hset, exec_incs_cons p g gs _ _ hset, hs, e1, e2]
  simp [hlen]

theorem unmatched_decrement_witness :
    New (1 : Int) [] = .ok (⟨0⟩, [⟨0, 1, [], []⟩]) ∧ [5].length = 1 ∧
      (exec (Pipe.Decrement ⟨0⟩ 3 [⟨0, 1, [], []⟩]).1 (incs ⟨0⟩ (4 :: [5]))).2 =
        (⟨⟨0⟩, .Increment, 4⟩, ⟨.returned, some 3⟩) ::
          (incs ⟨0⟩ [5]).map (fun r => (r, ⟨.returned, none⟩)) :=
  ⟨rfl, rfl, (unmatched_decrement 1 [] [⟨0, 1, [], []⟩] ⟨0⟩ (New_ofNat 1 []) 3 4 [5]
    rfl).2.2.2.2.1⟩

/-- C5 (blocking at saturation): when `W + 1` callers `gs ++ [g]` call
`Increment` on a fresh `New(W)`, the first `W` return at once and the last one
parks, with `W` slots held; a `Decrement` then returns at once and releases the
parked `Increment`, and `W` slots are held again with nobody parked. -/
theorem blocking_at_saturation (W : Nat) (h0 h1 : Heap) (p : Pipe)
    (hnew : New (W : Int) h0 = .ok (p, h1)) (gs : List Nat) (hlen : gs.length = W)
    (g d : Nat) :
    (exec h1 (incs p (gs ++ [g]))).2 =
        (incs p gs).map (fun r => (r, ⟨.returned, none⟩)) ++
          [(⟨p, .Increment, g⟩, ⟨.blocked, none⟩)] ∧
      p.held (exec h1 (incs p (gs ++ [g]))).1 = W ∧
      p.waitingInc (exec h1 (incs p (gs ++ [g]))).1 = [g] ∧
      (p.Decrement d (exec h1 (incs p (gs ++ [g]))).1).2 = ⟨.returned, some g⟩ ∧
      p.held (p.Decrement d (exec h1 (incs p (gs ++ [g]))).1).1 = W ∧
      p.waitingInc (p.Decrement d (exec h1 (incs p (gs ++ [g]))).1).1 = [] := by
  have hget := New_get hnew
  obtain ⟨e1, e2⟩ := exec_incs_room p gs h1 ⟨0, W, [], []⟩ hget rfl (by simp [hlen])
  simp only [hlen, Nat.zero_add] at e1
  have hs : chansend ⟨W, W, [], []⟩ g = (⟨W, W, [], [g]⟩, ⟨.blocked, none⟩) := by
    simp [chansend]
  have hset := get_set_same _ p.c _ (chansend ⟨W, W, [], []⟩ g).1 e1
  rw [hs] at hset
  have hr : chanrecv ⟨W, W, [], [g]⟩ d = (⟨W, W, [], []⟩, ⟨.returned, some g⟩) := by
    simp [chanrecv]
  have hset2 := get_set_same _ p.c _ (chanrecv ⟨W, W, [], [g]⟩ d).1 hset
  rw [hr] at hset2
  have hone : exec (exec h1 (incs p gs)).1 (incs p [g]) =
      ((exec h1 (incs p gs)).1.set p.c ⟨W, W, [], [g]⟩,
        [(⟨p, .Increment, g⟩, ⟨.blocked, none⟩)]) := by
    rw [exec_incs_cons p g [] _ _ e1, hs]
    simp [incs, exec]
  simp only [incs_append, exec_append, hone, e2, Pipe.held, Pipe.waitingInc, hset,
    Decrement_some p d _ _ hset, hr, hset2]
  simp

theorem blocking_at_saturation_witness :
    New (2 : Int) [] = .ok (⟨0⟩, [⟨0, 2, [], []⟩]) ∧ [0, 1].length = 2 ∧
      (exec [⟨0, 2, [], []⟩] (incs ⟨0⟩ ([0, 1] ++ [2]))).2 =
        (incs ⟨0⟩ [0, 1]).map (fun r => (r, ⟨.returned, none⟩)) ++
          [(⟨⟨0⟩, .Increment, 2⟩, ⟨.blocked, none⟩)] ∧
      (Pipe.Decrement ⟨0⟩ 0 (exec [⟨0, 2, [], []⟩] (incs ⟨0⟩ ([0, 1] ++ [2]))).1).2 =
        ⟨.returned, some 2⟩ :=
  ⟨rfl, rfl, (blocking_at_saturation 2 [] [⟨0, 2, [], []⟩] ⟨0⟩ (New_ofNat 2 []) [0, 1] rfl
    2 0).1, (blocking_at_saturation 2 [] [⟨0, 2, [], []⟩] ⟨0⟩ (New_ofNat 2 []) [0, 1] rfl
    2 0).2.2.2.1⟩

/-- C7 (sequential reuse): for `W ≥ 1` and every `n`, a single goroutine
running `n` times `Increment` then `Decrement` on a fresh `New(W)` is never
parked (every call returns at once, releasing nobody), and after the `n` pairs,
for every `n`, no slot is held and nobody is parked. -/
theorem sequential_reuse (W : Nat) (hW : 1 ≤ W) (h0 h1 : Heap) (p : Pipe)
    (hnew : New (W : Int) h0 = .ok (p, h1)) (g n : Nat) :
    (∀ x ∈ (exec h1 (pairs p g n)).2, x.2 = ⟨.returned, none⟩) ∧
      (exec h1 (pairs p g n)).2.length = 2 * n ∧
      p.held (exec h1 (pairs p g n)).1 = 0 ∧
      p.waitingInc (exec h1 (pairs p g n)).1 = [] ∧
      p.waitingDec (exec h1 (pairs p g n)).1 = [] := by
  obtain ⟨e1, e2⟩ := exec_pairs p g W hW n h1 (New_get hnew)
  refine ⟨e2, ?_, ?_⟩
  · clear e1 e2 hnew
    induction n generalizing h1 with
    | zero => rfl
    | succ n ih =>
      simp only [pairs, exec, List.length_cons, ih]
      omega
  · simp [Pipe.held, Pipe.waitingInc, Pipe.waitingDec, e1]

theorem sequential_reuse_witness :
    1 ≤ 1 ∧ New (1 : Int) [] = .ok (⟨0⟩, [⟨0, 1, [], []⟩]) ∧
      (exec [⟨0, 1, [], []⟩] (pairs ⟨0⟩ 0 2)).2 =
        [(⟨⟨0⟩, .Increment, 0⟩, ⟨.returned, none⟩), (⟨⟨0⟩, .Decrement, 0⟩, ⟨.returned, none⟩),
         (⟨⟨0⟩, .Increment, 0⟩, ⟨.returned, none⟩), (⟨⟨0⟩, .Decrement, 0⟩, ⟨.returned, none⟩)] ∧
      Pipe.held ⟨0⟩ (exec [⟨0, 1, [], []⟩] (pairs ⟨0⟩ 0 2)).1 = 0 :=
  ⟨Nat.le_refl 1, rfl, rfl, (sequential_reuse 1 (Nat.le_refl 1) [] [⟨0, 1, [], []⟩] ⟨0⟩
    (New_ofNat 1 []) 0 2).2.2.1⟩

/-- C8, counterexample: on `New(0)` the `Increment` of goroutine 0 parks, and
returns as soon as goroutine 1 calls `Decrement`: it does not block forever. -/
theorem zero_capacity_counterexample :
    New (0 : Int) [] = .ok (⟨0⟩, [⟨0, 0, [], []⟩]) ∧
      (exec [⟨0, 0, [], []⟩] [⟨⟨0⟩, .Increment, 0⟩, ⟨⟨0⟩, .Decrement, 1⟩]).2 =
        [(⟨⟨0⟩, .Increment, 0⟩, ⟨.blocked, none⟩),
         (⟨⟨0⟩, .Decrement, 1⟩, ⟨.returned, some 0⟩)] ∧
      incReturned ⟨0⟩
        (exec [⟨0, 0, [], []⟩] [⟨⟨0⟩, .Increment, 0⟩, ⟨⟨0⟩, .Decrement, 1⟩]).2 = 1 := by
  refine ⟨rfl, rfl, rfl⟩

/-- C8, amended: `New(0)` is accepted and yields a pipe that never holds a slot
and on which an `Increment` returns only paired with a `Decrement`: after every
execution as many `Increment` as `Decrement` calls have returned, and in an
execution with no `Decrement` call on the pipe every `Increment` (or `One`)
call on it parks and none ever returns. -/
theorem zero_capacity (h0 : Heap) (reqs : List Req) :
    New (0 : Int) h0 = .ok (⟨h0.length⟩, h0 ++ [⟨0, 0, [], []⟩]) ∧
      Pipe.held ⟨h0.length⟩ (exec (h0 ++ [⟨0, 0, [], []⟩]) reqs).1 = 0 ∧
      incReturned ⟨h0.length⟩ (exec (h0 ++ [⟨0, 0, [], []⟩]) reqs).2 =
        decReturned ⟨h0.length⟩ (exec (h0 ++ [⟨0, 0, [], []⟩]) reqs).2 ∧
      ((∀ r ∈ reqs, r.p = ⟨h0.length⟩ → r.call.acquires = true) →
        incReturned ⟨h0.length⟩ (exec (h0 ++ [⟨0, 0, [], []⟩]) reqs).2 = 0 ∧
        ∀ x ∈ (exec (h0 ++ [⟨0, 0, [], []⟩]) reqs).2, x.1.p = ⟨h0.length⟩ →
          x.2 = ⟨.blocked, none⟩) := by
  have hnew : New ((0 : Nat) : Int) h0 = .ok (⟨h0.length⟩, h0 ++ [⟨0, 0, [], []⟩]) :=
    New_ofNat 0 h0
  have hb := held_count_aux hnew reqs
  refine ⟨by simpa using hnew, by omega, by omega, fun hall => ?_⟩
  exact exec_zero ⟨h0.length⟩ reqs _ _ (New_get hnew) rfl rfl hall

theorem zero_capacity_witness :
    (∀ r ∈ [(⟨⟨0⟩, .Increment, 0⟩ : Req), ⟨⟨0⟩, .One, 1⟩], r.p = ⟨0⟩ → r.call.acquires = true) ∧
      incReturned ⟨0⟩
        (exec ([] ++ [⟨0, 0, [], []⟩]) [⟨⟨0⟩, .Increment, 0⟩, ⟨⟨0⟩, .One, 1⟩]).2 = 0 :=
  ⟨by decide, ((zero_capacity [] [⟨⟨0⟩, .Increment, 0⟩, ⟨⟨0⟩, .One, 1⟩]).2.2.2
    (by decide)).1⟩

theorem New_spec_witness :
    (0 : Int) ≤ 0 ∧ ∃ p h1, New 0 [] = .ok (p, h1) ∧ (p.capacity h1 : Int) = 0 ∧
      p.held h1 = 0 ∧ p.waitingInc h1 = [] ∧ p.waitingDec h1 = [] :=
  ⟨Int.le_refl 0, (New_spec 0 []).2 (Int.le_refl 0)⟩

end pipe
